import Mathlib

set_option maxRecDepth 12000

/-
Verification of the weight-normalization and KPI-application pipeline of the
E-Nirikshan performance-management application.

Modelling conventions:
* JS numbers are modelled as exact rationals (`ℚ`); `parseFloat(x.toFixed(2))`
  becomes the explicit rounding function `round2`.
* A JS `Record<string, number>` is modelled as an association list in insertion
  order (JS objects iterate string keys in insertion order).  JS object keys
  are unique; theorems assume `Nodup` on the key list where the code relies on
  that.
* `typeof v === "number" && !isNaN(v)` is always true in the rational model, so
  only the numeric comparison of a filter remains.
-/

namespace ENirikshan

/-- `parseFloat(x.toFixed(2))`: rounding to two decimal places. -/
def round2 (q : ℚ) : ℚ := (round (100 * q) : ℤ) / 100

/-- A JS `Record<string, number>` in insertion order. -/
abbrev WMap := List (String × ℚ)

/-- `Object.keys`. -/
def keysOf (l : WMap) : List String := l.map Prod.fst

/-- `Object.values`. -/
def valsOf (l : WMap) : List ℚ := l.map Prod.snd

/-- `Object.values(l).reduce((a, b) => a + b, 0)`. -/
def totalOf (l : WMap) : ℚ := (valsOf l).sum

/-- Mutating the value of the last key of a JS object in place (the object
keeps its key order, so only the final entry's value changes). -/
def updateLast (f : ℚ → ℚ) : WMap → WMap
  | [] => []
  | [p] => [(p.1, f p.2)]
  | p :: q :: rest => p :: updateLast f (q :: rest)

/-- `obj[k] = f(obj[k])` on a JS object: the (unique) entry with key `k` is
updated in place.  On an association list the first entry with key `k` is
updated; for key-`Nodup` lists this is the JS behaviour. -/
def updateAt (k : String) (f : ℚ → ℚ) : WMap → WMap
  | [] => []
  | p :: rest => if p.1 = k then (p.1, f p.2) :: rest else p :: updateAt k f rest

/-- `normalizedWeights[name] || 0`: a missing key reads as 0 (and a stored 0
also yields 0 through the falsy `||`). -/
def lookupD (l : WMap) (k : String) : ℚ :=
  ((l.find? (fun p => p.1 = k)).map Prod.snd).getD 0

namespace NormalizeWeightsUtil

/- Embedding of `src/utils/normalizeWeights.ts`. -/

/-- The filter step: keep entries whose value is a finite number `> 0`. -/
def filteredOf (raw : WMap) : WMap := raw.filter (fun p => 0 < p.2)

/-- The proportional-normalization step: `(v / total) * 100` rounded to two
decimals, over the filtered entries. -/
def normalizedOf (raw : WMap) : WMap :=
  (filteredOf raw).map (fun p => (p.1, round2 (p.2 / totalOf (filteredOf raw) * 100)))

/-- `diff = parseFloat((100 - sumNorm).toFixed(2))`. -/
def diffOf (raw : WMap) : ℚ := round2 (100 - totalOf (normalizedOf raw))

/-- `normalizeWeights` of `src/utils/normalizeWeights.ts`. -/
def normalizeWeights (raw : WMap) : WMap :=
  if raw = [] then []
  else if filteredOf raw = [] then []
  else if totalOf (filteredOf raw) = 0 then
    (filteredOf raw).map (fun p => (p.1, round2 (100 / ((filteredOf raw).length : ℚ))))
  else if 1/10000 < |diffOf raw| then
    updateLast (fun v => round2 (v + diffOf raw)) (normalizedOf raw)
  else normalizedOf raw

end NormalizeWeightsUtil

namespace KpiCalc

/- Embedding of the KPI-calculation utility module (the second
`normalizeWeights` implementation and `deduplicateKPIs`). -/

/-- Step 1 of the KPI-specific normalizer: proportional normalization of all
entries (this variant performs no positivity filtering). -/
def normalizedOf (weights : WMap) : WMap :=
  weights.map (fun p => (p.1, round2 (p.2 / totalOf weights * 100)))

/-- `correction = parseFloat((100 - currentTotal).toFixed(2))`. -/
def correctionOf (weights : WMap) : ℚ := round2 (100 - totalOf (normalizedOf weights))

/-- One step of `keys.reduce((a, b) => normalized[a] > normalized[b] ? a : b)`,
expressed on the entries themselves (object keys are unique, and `normalized`
has the same keys in the same order as `keys`). -/
def pickLarger (a b : String × ℚ) : String × ℚ := if a.2 > b.2 then a else b

/-- `keys.reduce((a, b) => normalized[a] > normalized[b] ? a : b)` over a
non-empty object; on `[]` (unreachable in the source) a dummy is returned. -/
def largestEntryOf (l : WMap) : String × ℚ :=
  match l with
  | [] => ("", 0)
  | p :: rest => rest.foldl pickLarger p

/-- `normalizeWeights` of the KPI-calculation utility module. -/
def normalizeWeights (weights : WMap) : WMap :=
  if weights = [] then []
  else if totalOf weights = 0 then
    weights.map (fun p => (p.1, round2 (100 / (weights.length : ℚ))))
  else if 1/100 < |correctionOf weights| then
    updateAt (largestEntryOf (normalizedOf weights)).1
      (fun v => round2 (v + correctionOf weights)) (normalizedOf weights)
  else normalizedOf weights

end KpiCalc

/-- JS `a || b` on strings: the empty string is falsy. -/
def jsStrOr (a b : String) : String := if a = "" then b else a

/-- JS `a || b` on numbers: `0` is falsy. -/
def jsNumOr (a b : ℚ) : ℚ := if a = 0 then b else a

/-- JS `o || d` where `o` may be `undefined`: `undefined` and `""` are falsy. -/
def jsStrOrD (o : Option String) (d : String) : String := jsStrOr (o.getD "") d

/-- The per-KPI weight pair `{ fieldWeight, hqWeight }` of a `KPIWeights` value. -/
structure ChannelWeight where
  fieldWeight : ℚ
  hqWeight : ℚ
deriving DecidableEq

/-- A JS `KPIWeights` object (`kpiName → { fieldWeight, hqWeight }`) in insertion
order. -/
abbrev CWMap := List (String × ChannelWeight)

namespace GeminiKPI

/- Embedding of the dedup loop of `normalizeKPIWeights` in the Gemini KPI
analysis module: the loop walks the entries and either stores a first
occurrence or merges a duplicate with `Math.max` per channel.  The loop is
modelled on the sequence of entries it processes. -/

/-- The `else` branch of the dedup loop:
`uniqueKPIs[k].fieldWeight = Math.max(uniqueKPIs[k].fieldWeight, weights[k].fieldWeight)`
and the same for `hqWeight`. -/
def mergeDup (a b : ChannelWeight) : ChannelWeight :=
  ⟨max a.fieldWeight b.fieldWeight, max a.hqWeight b.hqWeight⟩

/-- One iteration of the dedup loop: a fresh name is appended, a duplicate
name is max-merged into the stored entry (which keeps its position). -/
def insertEntry (acc : CWMap) (e : String × ChannelWeight) : CWMap :=
  if (acc.map Prod.fst).contains e.1 then
    acc.map (fun a => if a.1 = e.1 then (a.1, mergeDup a.2 e.2) else a)
  else acc ++ [e]

/-- The `uniqueKPIs` accumulation of `normalizeKPIWeights`. -/
def dedupeKPIEntries (l : CWMap) : CWMap := l.foldl insertEntry []

end GeminiKPI

namespace KpiCalc

/-- A KPI list item as accepted by `deduplicateKPIs`
(`T extends (kpiName?; name?; weight?; weightage?)`); absent optional fields
are `none`. -/
structure KpiItem where
  kpiName : Option String
  name : Option String
  weight : Option ℚ
  weightage : Option ℚ
deriving DecidableEq

/-- `kpi.kpiName || kpi.name || ''`. -/
def effName (k : KpiItem) : String := jsStrOr (k.kpiName.getD "") (k.name.getD "")

/-- `kpi.weight || kpi.weightage || 0`. -/
def effWeight (k : KpiItem) : ℚ := jsNumOr (k.weight.getD 0) (k.weightage.getD 0)

/-- `uniqueMap.get(name)` for the insertion-ordered JS `Map`. -/
def mapGet (acc : List (String × KpiItem)) (k : String) : Option KpiItem :=
  (acc.find? (fun a => a.1 = k)).map Prod.snd

/-- `uniqueMap.set(name, kpi)`: replacing an existing key keeps its position,
a fresh key is appended. -/
def mapSet (acc : List (String × KpiItem)) (k : String) (v : KpiItem) :
    List (String × KpiItem) :=
  if (acc.map Prod.fst).contains k then
    acc.map (fun a => if a.1 = k then (a.1, v) else a)
  else acc ++ [(k, v)]

/-- One iteration of the `deduplicateKPIs` loop. -/
def dedupStep (acc : List (String × KpiItem)) (kpi : KpiItem) :
    List (String × KpiItem) :=
  if effName kpi = "" then acc
  else
    match mapGet acc (effName kpi) with
    | none => mapSet acc (effName kpi) kpi
    | some existing =>
        if effWeight existing < effWeight kpi then mapSet acc (effName kpi) kpi
        else acc

/-- `deduplicateKPIs` of the KPI-calculation utility module:
`Array.from(uniqueMap.values())`. -/
def deduplicateKPIs (l : List KpiItem) : List KpiItem :=
  (l.foldl dedupStep []).map Prod.snd

end KpiCalc

namespace RecalcKPI

/- Embedding of the per-KPI loop of `recalculateKPIForEmployee`
(`src/utils/ai/recalculateKPI.ts`), the report-triggered recalculation path. -/

/-- `employeeType === 'Field' ? weights.fieldWeight : weights.hqWeight`. -/
def weightToUse (employeeType : String) (w : ChannelWeight) : ℚ :=
  if employeeType = "Field" then w.fieldWeight else w.hqWeight

/-- One iteration of the loop over `Object.entries(kpiWeights)`: a KPI with
`weightToUse === 0 || weightToUse < 5` is skipped, otherwise its name is
recorded in `createdKPIs` (no existing record of that name) or `updatedKPIs`
(an existing record is rewritten). -/
def recalcStepFn (employeeType : String) (existingNames : List String)
    (acc : List String × List String) (e : String × ChannelWeight) :
    List String × List String :=
  if weightToUse employeeType e.2 = 0 ∨ weightToUse employeeType e.2 < 5 then acc
  else if existingNames.contains e.1 then (acc.1, acc.2 ++ [e.1])
  else (acc.1 ++ [e.1], acc.2)

/-- The whole loop; returns `(createdKPIs, updatedKPIs)`. -/
def recalcStep (employeeType : String) (existingNames : List String)
    (kpiWeights : CWMap) : List String × List String :=
  kpiWeights.foldl (recalcStepFn employeeType existingNames) ([], [])

end RecalcKPI

/-- An employee KPI document (the fields of the `Kpi` model that the
apply-project-weights route reads or writes). -/
structure KpiRecord where
  kpiName : String
  weightage : ℚ
  originalWeightage : Option ℚ
  assignedTo : String
  period : String
  isDefault : Bool
  isProjectSpecific : Bool
  projectId : Option String
deriving DecidableEq

/-- A `Project` document: `kpiWeights` is absent until AI analysis stores it. -/
structure ProjectRec where
  id : String
  name : String
  kpiWeights : Option CWMap
deriving DecidableEq

/-- A `User` document. -/
structure UserRec where
  id : String
  name : String
  employerType : Option String
deriving DecidableEq

/-- The persistent state the route touches. -/
structure Db where
  projects : List ProjectRec
  users : List UserRec
  kpis : List KpiRecord
deriving DecidableEq

namespace ApplyRoute

/- Embedding of the `POST` handler of
`src/app/api/kpi/apply-project-weights/route.ts`. -/

/-- The route's possible responses. -/
inductive ApplyResult where
  | forbidden
  | missingFields
  | projectNotFound
  | employeeNotFound
  | noWeights
  | noDefaultKpis
  | success (updatedCount deletedCount : Nat)
deriving DecidableEq

/-- Response plus the database state after the request. -/
structure Outcome where
  result : ApplyResult
  db : Db
deriving DecidableEq

/-- `Project.findById`. -/
def findProject (db : Db) (pid : String) : Option ProjectRec :=
  db.projects.find? (fun p => p.id = pid)

/-- `User.findById`. -/
def findUser (db : Db) (uid : String) : Option UserRec :=
  db.users.find? (fun u => u.id = uid)

/-- `projectWeights[kpiName]` (may be `undefined`). -/
def lookupCW (w : CWMap) (k : String) : Option ChannelWeight :=
  (w.find? (fun p => p.1 = k)).map Prod.snd

/-- `weightInfo ? (employerType === "HQ" ? weightInfo.hqWeight : weightInfo.fieldWeight) : 0`. -/
def targetWeight (projectWeights : CWMap) (employerType : String)
    (kpiName : String) : ℚ :=
  match lookupCW projectWeights kpiName with
  | some w => if employerType = "HQ" then w.hqWeight else w.fieldWeight
  | none => 0

/-- Cloning one default KPI into a project-specific document:
`finalWeight = mappedWeight > 0 ? (normalizedWeights[name] || 0) : 0`, the
default's weightage moves to `originalWeightage`, and the clone is stamped
non-default, project-specific, with the project's id. -/
def cloneDoc (project : ProjectRec) (projectWeights : CWMap)
    (employerType : String) (normalizedWeights : WMap) (d : KpiRecord) : KpiRecord :=
  { kpiName := d.kpiName
    weightage :=
      if 0 < targetWeight projectWeights employerType d.kpiName then
        lookupD normalizedWeights d.kpiName
      else 0
    originalWeightage := some d.weightage
    assignedTo := d.assignedTo
    period := d.period
    isDefault := false
    isProjectSpecific := true
    projectId := some project.id }

/-- The records matched by
`Kpi.deleteMany(assignedTo: employeeId, isProjectSpecific: true)`. -/
def deletedOf (db : Db) (employeeId : String) : List KpiRecord :=
  db.kpis.filter (fun k => k.assignedTo = employeeId ∧ k.isProjectSpecific = true)

/-- The KPI collection right after the `deleteMany`. -/
def remainingOf (db : Db) (employeeId : String) : List KpiRecord :=
  db.kpis.filter (fun k => ¬(k.assignedTo = employeeId ∧ k.isProjectSpecific = true))

/-- `Kpi.find(assignedTo, period, isDefault: true)`, which the route issues
AFTER the `deleteMany`. -/
def defaultsOf (db : Db) (employeeId period : String) : List KpiRecord :=
  (remainingOf db employeeId).filter
    (fun k => k.assignedTo = employeeId ∧ k.period = period ∧ k.isDefault = true)

/-- The `positiveWeights` mapping the route builds from the default template. -/
def positiveWeightsOf (defaultKpis : List KpiRecord) (projectWeights : CWMap)
    (employerType : String) : WMap :=
  (defaultKpis.map
    (fun d => (d.kpiName, targetWeight projectWeights employerType d.kpiName))).filter
    (fun p => 0 < p.2)

/-- The bulk-inserted project-specific clones of the default template. -/
def newDocsOf (project : ProjectRec) (projectWeights : CWMap) (employerType : String)
    (defaultKpis : List KpiRecord) : List KpiRecord :=
  defaultKpis.map
    (cloneDoc project projectWeights employerType
      (NormalizeWeightsUtil.normalizeWeights
        (positiveWeightsOf defaultKpis projectWeights employerType)))

/-- The `POST` handler.  The admin check and the body-field check come first;
the project, employee and weight-profile reads precede the
`Kpi.deleteMany(assignedTo, isProjectSpecific)` call; the default-template
query runs on the post-deletion state; the clones of the default KPIs are
bulk-inserted at the end. -/
def POST (isAdmin : Bool) (db : Db) (projectId employeeId period : String) : Outcome :=
  if isAdmin = false then ⟨.forbidden, db⟩
  else if projectId = "" ∨ employeeId = "" then ⟨.missingFields, db⟩
  else
    match findProject db projectId, findUser db employeeId with
    | none, _ => ⟨.projectNotFound, db⟩
    | some _, none => ⟨.employeeNotFound, db⟩
    | some project, some employee =>
      match project.kpiWeights with
      | none => ⟨.noWeights, db⟩
      | some projectWeights =>
        if defaultsOf db employeeId period = [] then
          ⟨.noDefaultKpis, { db with kpis := remainingOf db employeeId }⟩
        else
          ⟨.success
              (newDocsOf project projectWeights (jsStrOrD employee.employerType "Field")
                (defaultsOf db employeeId period)).length
              (deletedOf db employeeId).length,
            { db with kpis := (remainingOf db employeeId ++
                newDocsOf project projectWeights (jsStrOrD employee.employerType "Field")
                  (defaultsOf db employeeId period)) }⟩

end ApplyRoute

/-- A default-template KPI record (employee e1, KPI name A). -/
def defaultKpiA : KpiRecord :=
  { kpiName := "A", weightage := 50, originalWeightage := none, assignedTo := "e1",
    period := "Annual", isDefault := true, isProjectSpecific := false, projectId := none }

/-- A default-template KPI record (employee e1, KPI name B). -/
def defaultKpiB : KpiRecord :=
  { kpiName := "B", weightage := 50, originalWeightage := none, assignedTo := "e1",
    period := "Annual", isDefault := true, isProjectSpecific := false, projectId := none }

/-- A leftover project-specific KPI record of employee e1 from project p0. -/
def oldProjectKpi : KpiRecord :=
  { kpiName := "Old", weightage := 100, originalWeightage := none, assignedTo := "e1",
    period := "Annual", isDefault := false, isProjectSpecific := true, projectId := some "p0" }

/-- A project with an AI weight profile. -/
def projectP1 : ProjectRec := ⟨"p1", "Bridge", some [("A", ⟨60, 40⟩), ("B", ⟨40, 60⟩)]⟩

/-- A Field employee. -/
def userE1 : UserRec := ⟨"e1", "Asha", some "Field"⟩

/-- A state in which employee e1 has a project-specific KPI record but no
default template. -/
def dbNoTemplate : Db := ⟨[projectP1], [userE1], [oldProjectKpi]⟩

/-- A state in which employee e1 has a two-KPI default template. -/
def dbReady : Db := ⟨[projectP1], [userE1], [defaultKpiA, defaultKpiB]⟩

/-- A project whose field weights normalize to 97 and 3 (B below the 5%
minimum). -/
def projectLow : ProjectRec := ⟨"p2", "Survey", some [("A", ⟨97, 0⟩), ("B", ⟨3, 0⟩)]⟩

/-- `dbReady` with `projectLow` as the project. -/
def dbLow : Db := ⟨[projectLow], [userE1], [defaultKpiA, defaultKpiB]⟩

/-! Arithmetic facts about two-decimal rounding. -/

/-- A rational that is an integer number of hundredths (the form every
`toFixed(2)` result has). -/
def IsCenti (q : ℚ) : Prop := ∃ n : ℤ, q = n / 100

theorem isCenti_round2 (q : ℚ) : IsCenti (round2 q) := ⟨round (100 * q), rfl⟩

theorem IsCenti.add {a b : ℚ} (ha : IsCenti a) (hb : IsCenti b) : IsCenti (a + b) := by
  obtain ⟨m, rfl⟩ := ha
  obtain ⟨n, rfl⟩ := hb
  exact ⟨m + n, by push_cast; ring⟩

theorem isCenti_zero : IsCenti 0 := ⟨0, by norm_num⟩

theorem isCenti_hundred : IsCenti 100 := ⟨10000, by norm_num⟩

theorem IsCenti.sub {a b : ℚ} (ha : IsCenti a) (hb : IsCenti b) : IsCenti (a - b) := by
  obtain ⟨m, rfl⟩ := ha
  obtain ⟨n, rfl⟩ := hb
  exact ⟨m - n, by push_cast; ring⟩

theorem isCenti_sum {l : List ℚ} (h : ∀ q ∈ l, IsCenti q) : IsCenti l.sum := by
  induction l with
  | nil => simpa using isCenti_zero
  | cons a t ih =>
      rw [List.sum_cons]
      exact (h a (List.mem_cons_self a t)).add (ih fun q hq => h q (List.mem_cons_of_mem a hq))

theorem round2_of_isCenti {q : ℚ} (h : IsCenti q) : round2 q = q := by
  obtain ⟨n, rfl⟩ := h
  have h100 : (100 : ℚ) * (n / 100) = (n : ℚ) := by field_simp
  rw [round2, h100, round_intCast]

theorem isCenti_eq_zero {q : ℚ} (h : IsCenti q) (hle : |q| ≤ 1 / 10000) : q = 0 := by
  obtain ⟨n, rfl⟩ := h
  have hn : |(n : ℚ)| ≤ 1 / 100 := by
    rw [abs_div, abs_of_pos (by norm_num : (0:ℚ) < 100)] at hle
    linarith [hle]
  have hlt : |(n : ℚ)| < 1 := lt_of_le_of_lt hn (by norm_num)
  have : (n : ℚ) = 0 := by
    rcases lt_trichotomy n 0 with hneg | hz | hpos
    · exfalso
      have h1 : n ≤ -1 := by omega
      have : (1 : ℚ) ≤ |(n : ℚ)| := by
        rw [abs_of_neg (by exact_mod_cast hneg)]
        have : ((-n : ℤ) : ℚ) ≥ 1 := by exact_mod_cast (by omega : (1:ℤ) ≤ -n)
        push_cast at this ⊢
        linarith
      linarith
    · exact_mod_cast hz
    · exfalso
      have : (1 : ℚ) ≤ |(n : ℚ)| := by
        rw [abs_of_pos (by exact_mod_cast hpos)]
        exact_mod_cast (by omega : (1:ℤ) ≤ n)
      linarith
  simp [this]

/-! Structural facts about the association-list operations. -/

theorem totalOf_append (l1 l2 : WMap) : totalOf (l1 ++ l2) = totalOf l1 + totalOf l2 := by
  simp [totalOf, valsOf]

theorem updateLast_decomp (f : ℚ → ℚ) :
    ∀ l : WMap, l ≠ [] →
      ∃ l' k v, l = l' ++ [(k, v)] ∧ updateLast f l = l' ++ [(k, f v)]
  | [], h => absurd rfl h
  | [p], _ => ⟨[], p.1, p.2, by simp, by simp [updateLast]⟩
  | p :: q :: rest, _ => by
      obtain ⟨l', k, v, h1, h2⟩ := updateLast_decomp f (q :: rest) (by simp)
      exact ⟨p :: l', k, v, by simp [h1], by simp [updateLast, h2]⟩

theorem updateAt_decomp (k : String) (f : ℚ → ℚ) :
    ∀ (l1 : WMap) (v : ℚ) (l2 : WMap), k ∉ l1.map Prod.fst →
      updateAt k f (l1 ++ (k, v) :: l2) = l1 ++ (k, f v) :: l2
  | [], v, l2, _ => by simp [updateAt]
  | p :: t, v, l2, h => by
      have hp : p.1 ≠ k := by
        intro hc
        exact h (by simp [hc])
      have ht : k ∉ t.map Prod.fst := fun hc => h (by simp [hc])
      simp only [List.cons_append, updateAt, if_neg hp, List.append_eq]
      rw [updateAt_decomp k f t v l2 ht]

theorem updateAt_decomp_entry (f : ℚ → ℚ) (l1 : WMap) (e : String × ℚ) (l2 : WMap)
    (hk : e.1 ∉ l1.map Prod.fst) :
    updateAt e.1 f (l1 ++ e :: l2) = l1 ++ (e.1, f e.2) :: l2 := by
  obtain ⟨k, v⟩ := e
  exact updateAt_decomp k f l1 v l2 hk

/-! Facts about the plain normalizer of `src/utils/normalizeWeights.ts`. -/

namespace NormalizeWeightsUtil

theorem normalizedOf_vals_centi (raw : WMap) :
    ∀ q ∈ valsOf (normalizedOf raw), IsCenti q := by
  intro q hq
  simp only [normalizedOf, valsOf, List.map_map, List.mem_map, Function.comp] at hq
  obtain ⟨p, _, rfl⟩ := hq
  exact isCenti_round2 _

theorem totalOf_normalized_centi (raw : WMap) : IsCenti (totalOf (normalizedOf raw)) :=
  isCenti_sum (normalizedOf_vals_centi raw)

/-- The rounding in `diff = parseFloat((100 - sumNorm).toFixed(2))` is exact:
the rounded sum is itself a whole number of hundredths. -/
theorem diffOf_exact (raw : WMap) : diffOf raw = 100 - totalOf (normalizedOf raw) :=
  round2_of_isCenti (isCenti_hundred.sub (totalOf_normalized_centi raw))

theorem filteredOf_pos (raw : WMap) : ∀ p ∈ filteredOf raw, 0 < p.2 := by
  intro p hp
  have := List.of_mem_filter hp
  simpa using this

theorem totalOf_filtered_pos (raw : WMap) (hne : filteredOf raw ≠ []) :
    0 < totalOf (filteredOf raw) := by
  apply List.sum_pos
  · intro x hx
    simp only [valsOf, List.mem_map] at hx
    obtain ⟨p, hp, rfl⟩ := hx
    exact filteredOf_pos raw p hp
  · simpa [valsOf] using hne

/-- With a non-empty all-positive filter result, the plain normalizer's output
sums to exactly 100. -/
theorem totalOf_normalizeWeights (raw : WMap) (hraw : raw ≠ [])
    (hne : filteredOf raw ≠ []) :
    totalOf (normalizeWeights raw) = 100 := by
  have hpos := totalOf_filtered_pos raw hne
  have hnn : normalizedOf raw ≠ [] := by
    simpa [normalizedOf] using hne
  unfold normalizeWeights
  rw [if_neg hraw, if_neg hne, if_neg (ne_of_gt hpos)]
  by_cases hd : 1/10000 < |diffOf raw|
  · rw [if_pos hd]
    obtain ⟨l', k, v, hdec, hupd⟩ := updateLast_decomp _ _ hnn
    have hvcenti : IsCenti v := by
      apply normalizedOf_vals_centi raw v
      rw [hdec]
      simp [valsOf]
    have hr2 : round2 (v + diffOf raw) = v + diffOf raw :=
      round2_of_isCenti (hvcenti.add (isCenti_round2 _))
    have hsum : totalOf (normalizedOf raw) = totalOf l' + v := by
      rw [hdec, totalOf_append]
      simp [totalOf, valsOf]
    have hdiff := diffOf_exact raw
    rw [hupd, totalOf_append, hr2]
    have h1 : totalOf [(k, v + diffOf raw)] = v + diffOf raw := by simp [totalOf, valsOf]
    rw [h1]
    linarith [hsum, hdiff]
  · rw [if_neg hd]
    have hz : diffOf raw = 0 :=
      isCenti_eq_zero (isCenti_round2 _) (le_of_not_lt hd)
    rw [diffOf_exact raw] at hz
    linarith [hz]

end NormalizeWeightsUtil

theorem totalOf_append_cons (l1 : WMap) (x : String × ℚ) (l2 : WMap) :
    totalOf (l1 ++ x :: l2) = totalOf l1 + x.2 + totalOf l2 := by
  simp [totalOf, valsOf]
  ring

/-! Facts about the KPI-specific normalizer. -/

namespace KpiCalc

theorem kpi_normalizedOf_vals_centi (w : WMap) :
    ∀ q ∈ valsOf (normalizedOf w), IsCenti q := by
  intro q hq
  simp only [normalizedOf, valsOf, List.map_map, List.mem_map, Function.comp] at hq
  obtain ⟨p, _, rfl⟩ := hq
  exact isCenti_round2 _

theorem correctionOf_exact (w : WMap) :
    correctionOf w = 100 - totalOf (normalizedOf w) :=
  round2_of_isCenti (isCenti_hundred.sub (isCenti_sum (kpi_normalizedOf_vals_centi w)))

theorem pickLarger_val (a b : String × ℚ) :
    a.2 ≤ (pickLarger a b).2 ∧ b.2 ≤ (pickLarger a b).2 := by
  unfold pickLarger
  split
  · exact ⟨le_refl _, by linarith [show a.2 > b.2 by assumption]⟩
  · exact ⟨le_of_not_lt (by assumption), le_refl _⟩

/-- `keys.reduce((a, b) => normalized[a] > normalized[b] ? a : b)` picks an
entry of maximal value; strictly-greater keeps the earlier candidate, so among
equal maximal values the reduce settles on the **last** one: everything to the
right of the picked entry is strictly smaller. -/
theorem foldl_pickLarger_spec (l : List (String × ℚ)) :
    ∀ a : String × ℚ,
      ∃ l1 l2, a :: l = l1 ++ (l.foldl pickLarger a) :: l2 ∧
        (∀ p ∈ l1, p.2 ≤ (l.foldl pickLarger a).2) ∧
        (∀ p ∈ l2, p.2 < (l.foldl pickLarger a).2) := by
  induction l with
  | nil =>
      intro a
      exact ⟨[], [], rfl, by simp, by simp⟩
  | cons b t ih =>
      intro a
      obtain ⟨l1, l2, hdec, hb1, hb2⟩ := ih (pickLarger a b)
      have hfold : (b :: t).foldl pickLarger a = t.foldl pickLarger (pickLarger a b) := rfl
      rw [hfold]
      set r := t.foldl pickLarger (pickLarger a b) with hr
      cases l1 with
      | nil =>
          simp only [List.nil_append] at hdec
          injection hdec with h1 h2
          by_cases hab : a.2 > b.2
          · have hpa : pickLarger a b = a := if_pos hab
            have hra : r = a := by rw [← h1, hpa]
            refine ⟨[], b :: t, ?_, by simp, ?_⟩
            · rw [hra]
              simp
            · intro p hp
              rcases List.mem_cons.1 hp with rfl | hpt
              · rw [hra]; exact hab
              · exact hb2 p (h2 ▸ hpt)
          · have hpb : pickLarger a b = b := if_neg hab
            have hrb : r = b := by rw [← h1, hpb]
            refine ⟨[a], t, ?_, ?_, ?_⟩
            · rw [hrb]
              simp
            · intro p hp
              simp only [List.mem_singleton] at hp
              subst hp
              rw [hrb]
              exact le_of_not_lt hab
            · intro p hpt
              exact hb2 p (h2 ▸ hpt)
      | cons c l1' =>
          simp only [List.cons_append] at hdec
          injection hdec with h1 h2
          refine ⟨a :: b :: l1', l2, ?_, ?_, hb2⟩
          · rw [h2]
            simp
          · intro p hp
            have hc1 := hb1 c (List.mem_cons_self c l1')
            rcases List.mem_cons.1 hp with rfl | hp'
            · have h := (pickLarger_val p b).1
              rw [h1] at h
              linarith
            rcases List.mem_cons.1 hp' with rfl | hp''
            · have h := (pickLarger_val a p).2
              rw [h1] at h
              linarith
            · exact hb1 p (List.mem_cons_of_mem c hp'')

theorem largestEntryOf_spec (l : WMap) (h : l ≠ []) :
    ∃ l1 l2, l = l1 ++ largestEntryOf l :: l2 ∧
      (∀ p ∈ l1, p.2 ≤ (largestEntryOf l).2) ∧
      (∀ p ∈ l2, p.2 < (largestEntryOf l).2) := by
  match l, h with
  | p :: rest, _ =>
      have hspec := foldl_pickLarger_spec rest p
      simpa [largestEntryOf] using hspec

theorem keysOf_normalizedOf (w : WMap) : keysOf (normalizedOf w) = keysOf w := by
  simp [keysOf, normalizedOf, List.map_map, Function.comp]

/-- When the correction branch of the KPI-specific normalizer fires, the whole
correction lands on the largest-valued entry (the last such entry on ties),
only that entry changes, and the returned values then sum to exactly 100. -/
theorem kpi_corrected_decomp (w : WMap) (hne : w ≠ []) (hnd : (keysOf w).Nodup)
    (h0 : totalOf w ≠ 0) (hc : 1/100 < |correctionOf w|) :
    ∃ l1 e l2, normalizedOf w = l1 ++ e :: l2 ∧
      (∀ p ∈ l1, p.2 ≤ e.2) ∧ (∀ p ∈ l2, p.2 < e.2) ∧
      normalizeWeights w = l1 ++ (e.1, e.2 + correctionOf w) :: l2 ∧
      totalOf (normalizeWeights w) = 100 := by
  have hnn : normalizedOf w ≠ [] := by simpa [normalizedOf] using hne
  obtain ⟨l1, l2, hdec, hb1, hb2⟩ := largestEntryOf_spec (normalizedOf w) hnn
  set e := largestEntryOf (normalizedOf w) with he
  have hndn : (keysOf (normalizedOf w)).Nodup := by
    rw [keysOf_normalizedOf]; exact hnd
  have hknotin : e.1 ∉ l1.map Prod.fst := by
    rw [hdec] at hndn
    simp only [keysOf, List.map_append, List.map_cons, List.nodup_append] at hndn
    intro hmem
    exact hndn.2.2 hmem (List.mem_cons_self _ _)
  have hupd : updateAt e.1 (fun v => round2 (v + correctionOf w)) (normalizedOf w)
      = l1 ++ (e.1, round2 (e.2 + correctionOf w)) :: l2 := by
    rw [hdec]
    exact updateAt_decomp_entry _ l1 e l2 hknotin
  have hecenti : IsCenti e.2 := by
    apply kpi_normalizedOf_vals_centi w
    rw [hdec]
    simp [valsOf]
  have hr2 : round2 (e.2 + correctionOf w) = e.2 + correctionOf w :=
    round2_of_isCenti (hecenti.add (isCenti_round2 _))
  have hres : normalizeWeights w = l1 ++ (e.1, e.2 + correctionOf w) :: l2 := by
    unfold normalizeWeights
    rw [if_neg hne, if_neg h0, if_pos hc, ← he, hupd, hr2]
  refine ⟨l1, e, l2, hdec, hb1, hb2, hres, ?_⟩
  rw [hres, totalOf_append_cons]
  have hsum : totalOf (normalizedOf w) = totalOf l1 + e.2 + totalOf l2 := by
    rw [hdec, totalOf_append_cons]
  have hcorr := correctionOf_exact w
  show totalOf l1 + (e.2 + correctionOf w) + totalOf l2 = 100
  linarith [hsum, hcorr]

/-- Drift bound of the KPI-specific normalizer: an uncorrected drift is at
most a hundredth by the branch condition, and a corrected result sums to
exactly 100. -/
theorem totalOf_kpi_close (w : WMap) (hne : w ≠ []) (hnd : (keysOf w).Nodup)
    (h0 : totalOf w ≠ 0) :
    |totalOf (normalizeWeights w) - 100| ≤ 1/100 := by
  by_cases hc : 1/100 < |correctionOf w|
  · obtain ⟨l1, e, l2, _, _, _, _, htot⟩ := kpi_corrected_decomp w hne hnd h0 hc
    rw [htot]
    norm_num
  · have hplain : normalizeWeights w = normalizedOf w := by
      unfold normalizeWeights
      rw [if_neg hne, if_neg h0, if_neg hc]
    rw [hplain]
    have hcorr := correctionOf_exact w
    have habs : |totalOf (normalizedOf w) - 100| = |correctionOf w| := by
      rw [hcorr, abs_sub_comm]
    rw [habs]
    exact le_of_not_lt hc

end KpiCalc

theorem keysOf_updateLast (f : ℚ → ℚ) : ∀ l : WMap, keysOf (updateLast f l) = keysOf l
  | [] => rfl
  | [_] => rfl
  | p :: q :: rest => by
      simp only [updateLast, keysOf, List.map_cons]
      have ih := keysOf_updateLast f (q :: rest)
      simp only [keysOf] at ih
      rw [ih]
      simp

namespace NormalizeWeightsUtil

theorem keysOf_plain_normalizedOf (raw : WMap) :
    keysOf (normalizedOf raw) = keysOf (filteredOf raw) := by
  simp [keysOf, normalizedOf, List.map_map, Function.comp]

/-- When the drift-correction branch of the plain normalizer fires, the whole
difference lands on the last entry, only that entry changes, and the returned
values then sum to exactly 100. -/
theorem plain_corrected_decomp (raw : WMap) (hne : filteredOf raw ≠ [])
    (hd : 1/10000 < |diffOf raw|) :
    ∃ l' k v, normalizedOf raw = l' ++ [(k, v)] ∧
      normalizeWeights raw = l' ++ [(k, v + diffOf raw)] ∧
      totalOf (normalizeWeights raw) = 100 := by
  have hraw : raw ≠ [] := by
    intro h
    rw [h] at hne
    simp [filteredOf] at hne
  have hpos := totalOf_filtered_pos raw hne
  have hnn : normalizedOf raw ≠ [] := by simpa [normalizedOf] using hne
  obtain ⟨l', k, v, hdec, hupd⟩ :=
    updateLast_decomp (fun v => round2 (v + diffOf raw)) _ hnn
  have hvcenti : IsCenti v := by
    apply normalizedOf_vals_centi raw v
    rw [hdec]
    simp [valsOf]
  have hr2 : round2 (v + diffOf raw) = v + diffOf raw :=
    round2_of_isCenti (hvcenti.add (isCenti_round2 _))
  have hres : normalizeWeights raw = l' ++ [(k, v + diffOf raw)] := by
    unfold normalizeWeights
    rw [if_neg hraw, if_neg hne, if_neg (ne_of_gt hpos), if_pos hd, hupd, hr2]
  refine ⟨l', k, v, hdec, hres, ?_⟩
  rw [hres, totalOf_append]
  have hsum : totalOf (normalizedOf raw) = totalOf l' + v := by
    rw [hdec, totalOf_append]
    simp [totalOf, valsOf]
  have hdiff := diffOf_exact raw
  have h1 : totalOf [(k, v + diffOf raw)] = v + diffOf raw := by simp [totalOf, valsOf]
  rw [h1]
  linarith [hsum, hdiff]

end NormalizeWeightsUtil

namespace GeminiKPI

theorem insertEntry_same_key (k : String) (c x : ChannelWeight) :
    insertEntry [(k, c)] (k, x) = [(k, mergeDup c x)] := by
  simp [insertEntry]

theorem dedupe_single_key (k : String) :
    ∀ (cs : List ChannelWeight) (c : ChannelWeight),
      List.foldl insertEntry [(k, c)] (cs.map (fun x => (k, x))) =
        [(k, ⟨(cs.map ChannelWeight.fieldWeight).foldl max c.fieldWeight,
              (cs.map ChannelWeight.hqWeight).foldl max c.hqWeight⟩)]
  | [], c => rfl
  | x :: t, c => by
      simp only [List.map_cons, List.foldl_cons, insertEntry_same_key]
      rw [dedupe_single_key k t (mergeDup c x)]
      rfl

end GeminiKPI

namespace KpiCalc

theorem mapSet_length (acc : List (String × KpiItem)) (k : String) (v : KpiItem) :
    (mapSet acc k v).length ≤ acc.length + 1 := by
  unfold mapSet
  split
  · simp
  · simp

theorem dedupStep_length (acc : List (String × KpiItem)) (kpi : KpiItem) :
    (dedupStep acc kpi).length ≤ acc.length + 1 := by
  unfold dedupStep
  split
  · omega
  · split
    · exact mapSet_length _ _ _
    · split
      · exact mapSet_length _ _ _
      · omega

theorem foldl_dedupStep_length :
    ∀ (l : List KpiItem) (acc : List (String × KpiItem)),
      (l.foldl dedupStep acc).length ≤ acc.length + l.length
  | [], acc => by simp
  | kpi :: t, acc => by
      simp only [List.foldl_cons, List.length_cons]
      have h1 := foldl_dedupStep_length t (dedupStep acc kpi)
      have h2 := dedupStep_length acc kpi
      omega

end KpiCalc

end ENirikshan

open ENirikshan

/-! Claim theorems: the sum invariant. -/

/-- C1: for every non-empty input mapping whose values are all (finite)
positive numbers, both `normalizeWeights` implementations return a mapping
whose values sum to 100.00 within a tolerance of 0.01. -/
theorem normalize_sum_within_tolerance (raw : WMap) (hne : raw ≠ [])
    (hpos : ∀ p ∈ raw, 0 < p.2) (hnd : (keysOf raw).Nodup) :
    |totalOf (NormalizeWeightsUtil.normalizeWeights raw) - 100| ≤ 1/100 ∧
    |totalOf (KpiCalc.normalizeWeights raw) - 100| ≤ 1/100 := by
  constructor
  · have hfil : NormalizeWeightsUtil.filteredOf raw = raw := by
      simp only [NormalizeWeightsUtil.filteredOf]
      rw [List.filter_eq_self]
      intro p hp
      simpa using hpos p hp
    have h := NormalizeWeightsUtil.totalOf_normalizeWeights raw hne
      (by rw [hfil]; exact hne)
    rw [h]
    norm_num
  · have h0 : totalOf raw ≠ 0 := by
      have hlt : 0 < totalOf raw := by
        apply List.sum_pos
        · intro x hx
          simp only [valsOf, List.mem_map] at hx
          obtain ⟨p, hp, rfl⟩ := hx
          exact hpos p hp
        · simpa [valsOf] using hne
      exact ne_of_gt hlt
    exact KpiCalc.totalOf_kpi_close raw hne hnd h0

theorem normalize_sum_within_tolerance_witness :
    (([("a", (1:ℚ)), ("b", 1), ("c", 1)] : WMap) ≠ []) ∧
    (∀ p ∈ ([("a", (1:ℚ)), ("b", 1), ("c", 1)] : WMap), 0 < p.2) ∧
    (keysOf [("a", 1), ("b", 1), ("c", 1)]).Nodup ∧
    (|totalOf (NormalizeWeightsUtil.normalizeWeights [("a", 1), ("b", 1), ("c", 1)]) - 100| ≤ 1/100 ∧
     |totalOf (KpiCalc.normalizeWeights [("a", 1), ("b", 1), ("c", 1)]) - 100| ≤ 1/100) :=
  ⟨by simp, by norm_num, by decide,
   normalize_sum_within_tolerance _ (by simp) (by norm_num) (by decide)⟩

/-! Claim theorems: the drift-correction target. -/

/-- C5 is refuted as stated: on six equal weights the KPI-specific normalizer
has drift 0.02 and equal normalized values everywhere, and the correction
lands on the LAST key f, not the first-seen key a as the claim asserts. -/
theorem drift_tiebreak_firstSeen_cex :
    KpiCalc.normalizeWeights
        [("a", 1), ("b", 1), ("c", 1), ("d", 1), ("e", 1), ("f", 1)] =
      [("a", 1667/100), ("b", 1667/100), ("c", 1667/100), ("d", 1667/100),
       ("e", 1667/100), ("f", 1665/100)] ∧
    KpiCalc.normalizeWeights
        [("a", 1), ("b", 1), ("c", 1), ("d", 1), ("e", 1), ("f", 1)] ≠
      [("a", 1665/100), ("b", 1667/100), ("c", 1667/100), ("d", 1667/100),
       ("e", 1667/100), ("f", 1667/100)] := by
  constructor
  · norm_num +decide [KpiCalc.normalizeWeights, KpiCalc.normalizedOf, KpiCalc.correctionOf,
      KpiCalc.largestEntryOf, KpiCalc.pickLarger, updateAt, round2, totalOf, valsOf,
      round_eq, List.cons_ne_nil, lt_abs, String.reduceEq]
  · norm_num +decide [KpiCalc.normalizeWeights, KpiCalc.normalizedOf, KpiCalc.correctionOf,
      KpiCalc.largestEntryOf, KpiCalc.pickLarger, updateAt, round2, totalOf, valsOf,
      round_eq, List.cons_ne_nil, lt_abs, String.reduceEq]

/-- C5 (amended): whenever drift correction fires, it adds the entire rounding
difference to exactly one entry, after which the values sum to exactly 100.00;
the plain normalizer adds it to the last key in iteration order, and the
KPI-specific normalizer adds it to the key with the largest current normalized
value, with ties among equal-valued keys broken in favour of the LAST-seen
key (every entry after the corrected one is strictly smaller). -/
theorem drift_correction_target (raw : WMap) :
    (NormalizeWeightsUtil.filteredOf raw ≠ [] →
      1/10000 < |NormalizeWeightsUtil.diffOf raw| →
      ∃ l' k v, NormalizeWeightsUtil.normalizedOf raw = l' ++ [(k, v)] ∧
        NormalizeWeightsUtil.normalizeWeights raw =
          l' ++ [(k, v + NormalizeWeightsUtil.diffOf raw)] ∧
        totalOf (NormalizeWeightsUtil.normalizeWeights raw) = 100) ∧
    (raw ≠ [] → (keysOf raw).Nodup → totalOf raw ≠ 0 →
      1/100 < |KpiCalc.correctionOf raw| →
      ∃ l1 e l2, KpiCalc.normalizedOf raw = l1 ++ e :: l2 ∧
        (∀ p ∈ l1, p.2 ≤ e.2) ∧ (∀ p ∈ l2, p.2 < e.2) ∧
        KpiCalc.normalizeWeights raw = l1 ++ (e.1, e.2 + KpiCalc.correctionOf raw) :: l2 ∧
        totalOf (KpiCalc.normalizeWeights raw) = 100) :=
  ⟨fun hne hd => NormalizeWeightsUtil.plain_corrected_decomp raw hne hd,
   fun hne hnd h0 hc => KpiCalc.kpi_corrected_decomp raw hne hnd h0 hc⟩

theorem drift_correction_target_witness :
    (NormalizeWeightsUtil.filteredOf [("a", 1), ("b", 1), ("c", 1)] ≠ [] ∧
     1/10000 < |NormalizeWeightsUtil.diffOf [("a", 1), ("b", 1), ("c", 1)]| ∧
     ∃ l' k v,
       NormalizeWeightsUtil.normalizedOf [("a", 1), ("b", 1), ("c", 1)] = l' ++ [(k, v)] ∧
       NormalizeWeightsUtil.normalizeWeights [("a", 1), ("b", 1), ("c", 1)] =
         l' ++ [(k, v + NormalizeWeightsUtil.diffOf [("a", 1), ("b", 1), ("c", 1)])] ∧
       totalOf (NormalizeWeightsUtil.normalizeWeights [("a", 1), ("b", 1), ("c", 1)]) = 100) ∧
    (1/100 < |KpiCalc.correctionOf [("a", 1), ("b", 1), ("c", 1), ("d", 1), ("e", 1), ("f", 1)]| ∧
     ∃ l1 e l2,
       KpiCalc.normalizedOf [("a", 1), ("b", 1), ("c", 1), ("d", 1), ("e", 1), ("f", 1)] =
         l1 ++ e :: l2 ∧
       (∀ p ∈ l1, p.2 ≤ e.2) ∧ (∀ p ∈ l2, p.2 < e.2) ∧
       KpiCalc.normalizeWeights [("a", 1), ("b", 1), ("c", 1), ("d", 1), ("e", 1), ("f", 1)] =
         l1 ++ (e.1, e.2 + KpiCalc.correctionOf
           [("a", 1), ("b", 1), ("c", 1), ("d", 1), ("e", 1), ("f", 1)]) :: l2 ∧
       totalOf (KpiCalc.normalizeWeights
         [("a", 1), ("b", 1), ("c", 1), ("d", 1), ("e", 1), ("f", 1)]) = 100) := by
  have hfil : NormalizeWeightsUtil.filteredOf [("a", (1:ℚ)), ("b", 1), ("c", 1)] ≠ [] := by
    simp [NormalizeWeightsUtil.filteredOf]
  have hd : 1/10000 < |NormalizeWeightsUtil.diffOf [("a", 1), ("b", 1), ("c", 1)]| := by
    norm_num [NormalizeWeightsUtil.diffOf, NormalizeWeightsUtil.normalizedOf,
      NormalizeWeightsUtil.filteredOf, round2, totalOf, valsOf, List.filter, round_eq, lt_abs]
  have hc : 1/100 <
      |KpiCalc.correctionOf [("a", 1), ("b", 1), ("c", 1), ("d", 1), ("e", 1), ("f", 1)]| := by
    norm_num [KpiCalc.correctionOf, KpiCalc.normalizedOf, round2, totalOf, valsOf,
      round_eq, lt_abs]
  exact ⟨⟨hfil, hd, (drift_correction_target _).1 hfil hd⟩,
    ⟨hc, (drift_correction_target _).2 (by simp) (by decide)
      (by norm_num [totalOf, valsOf]) hc⟩⟩

/-! Claim theorems: deduplication. -/

/-- C6: deduplication of KPI-weight entries merges duplicates of the same name
by taking the maximum per channel independently: a run of duplicates collapses
to one entry whose fieldWeight is the max of all the duplicates' fieldWeights
and, independently, whose hqWeight is the max of all their hqWeights; in
particular the spec's example merges to a record equal to neither input. -/
theorem dedup_max_merge_per_channel :
    (∀ (k : String) (c : ChannelWeight) (cs : List ChannelWeight),
      GeminiKPI.dedupeKPIEntries ((k, c) :: cs.map (fun x => (k, x))) =
        [(k, ⟨(cs.map ChannelWeight.fieldWeight).foldl max c.fieldWeight,
              (cs.map ChannelWeight.hqWeight).foldl max c.hqWeight⟩)]) ∧
    GeminiKPI.dedupeKPIEntries [("k", ⟨10, 5⟩), ("k", ⟨20, 2⟩)] = [("k", ⟨20, 5⟩)] := by
  constructor
  · intro k c cs
    unfold GeminiKPI.dedupeKPIEntries
    simp only [List.foldl_cons]
    have h0 : GeminiKPI.insertEntry [] (k, c) = [(k, c)] := by
      simp [GeminiKPI.insertEntry]
    rw [h0, GeminiKPI.dedupe_single_key]
  · norm_num [GeminiKPI.dedupeKPIEntries, GeminiKPI.insertEntry, GeminiKPI.mergeDup,
      List.foldl, List.contains]

/-! Claim theorems: degenerate inputs. -/

/-- C7 is refuted: on the all-non-positive input (a ↦ -1, b ↦ -5) neither
implementation returns the claimed equal split (a ↦ 50, b ↦ 50): the plain
normalizer filters both entries out and returns the empty mapping, and the
KPI-specific normalizer divides by the negative total -6, returning
(a ↦ 16.67, b ↦ 83.33). -/
theorem equal_split_nonpositive_cex :
    NormalizeWeightsUtil.normalizeWeights [("a", -1), ("b", -5)] = [] ∧
    KpiCalc.normalizeWeights [("a", -1), ("b", -5)] = [("a", 1667/100), ("b", 8333/100)] ∧
    NormalizeWeightsUtil.normalizeWeights [("a", -1), ("b", -5)] ≠ [("a", 50), ("b", 50)] ∧
    KpiCalc.normalizeWeights [("a", -1), ("b", -5)] ≠ [("a", 50), ("b", 50)] := by
  refine ⟨?_, ?_, ?_, ?_⟩
  · norm_num [NormalizeWeightsUtil.normalizeWeights, NormalizeWeightsUtil.filteredOf,
      NormalizeWeightsUtil.normalizedOf, NormalizeWeightsUtil.diffOf, round2, totalOf, valsOf,
      updateLast, List.filter, round_eq, List.cons_ne_nil, lt_abs, String.reduceEq]
  · norm_num +decide [KpiCalc.normalizeWeights, KpiCalc.normalizedOf, KpiCalc.correctionOf,
      KpiCalc.largestEntryOf, KpiCalc.pickLarger, updateAt, round2, totalOf, valsOf,
      round_eq, List.cons_ne_nil, lt_abs, String.reduceEq]
  · norm_num [NormalizeWeightsUtil.normalizeWeights, NormalizeWeightsUtil.filteredOf,
      NormalizeWeightsUtil.normalizedOf, NormalizeWeightsUtil.diffOf, round2, totalOf, valsOf,
      updateLast, List.filter, round_eq, List.cons_ne_nil, lt_abs, String.reduceEq]
  · norm_num +decide [KpiCalc.normalizeWeights, KpiCalc.normalizedOf, KpiCalc.correctionOf,
      KpiCalc.largestEntryOf, KpiCalc.pickLarger, updateAt, round2, totalOf, valsOf,
      round_eq, List.cons_ne_nil, lt_abs, String.reduceEq]

/-- C7 (amended): on an input whose weights are all non-positive the plain
normalizer returns the empty mapping (its positivity filter removes every
entry, and its equal-share branch never runs); the KPI-specific normalizer
does not filter: it equal-splits only when the total is exactly zero
((a ↦ 0, b ↦ 0) gives (a ↦ 50, b ↦ 50)) and otherwise normalizes by the
(negative) total, giving (a ↦ 16.67, b ↦ 83.33) on (a ↦ -1, b ↦ -5). -/
theorem nonpositive_input_behaviour :
    (∀ raw : WMap, (∀ p ∈ raw, p.2 ≤ 0) → NormalizeWeightsUtil.normalizeWeights raw = []) ∧
    KpiCalc.normalizeWeights [("a", -1), ("b", -5)] = [("a", 1667/100), ("b", 8333/100)] ∧
    KpiCalc.normalizeWeights [("a", 0), ("b", 0)] = [("a", 50), ("b", 50)] := by
  refine ⟨?_, ?_, ?_⟩
  · intro raw hle
    have hfil : NormalizeWeightsUtil.filteredOf raw = [] := by
      simp only [NormalizeWeightsUtil.filteredOf]
      rw [List.filter_eq_nil_iff]
      intro p hp
      simpa using not_lt.2 (hle p hp)
    unfold NormalizeWeightsUtil.normalizeWeights
    by_cases hraw : raw = []
    · rw [if_pos hraw]
    · rw [if_neg hraw, if_pos hfil]
  · norm_num +decide [KpiCalc.normalizeWeights, KpiCalc.normalizedOf, KpiCalc.correctionOf,
      KpiCalc.largestEntryOf, KpiCalc.pickLarger, updateAt, round2, totalOf, valsOf,
      round_eq, List.cons_ne_nil, lt_abs, String.reduceEq]
  · norm_num +decide [KpiCalc.normalizeWeights, KpiCalc.normalizedOf, KpiCalc.correctionOf,
      KpiCalc.largestEntryOf, KpiCalc.pickLarger, updateAt, round2, totalOf, valsOf,
      round_eq, List.cons_ne_nil, lt_abs, String.reduceEq]

theorem nonpositive_input_behaviour_witness :
    (∀ p ∈ ([("a", (-1:ℚ)), ("b", -5)] : WMap), p.2 ≤ 0) ∧
    NormalizeWeightsUtil.normalizeWeights [("a", -1), ("b", -5)] = [] :=
  ⟨by norm_num, (nonpositive_input_behaviour.1) _ (by norm_num)⟩

/-- C8 is refuted for the KPI-specific implementation: on (a ↦ 0, b ↦ 0, c ↦ 5)
it does NOT return the claimed (c ↦ 100): zero entries are kept at 0, giving
(a ↦ 0, b ↦ 0, c ↦ 100). -/
theorem zero_filter_kpi_variant_cex :
    KpiCalc.normalizeWeights [("a", 0), ("b", 0), ("c", 5)] = [("a", 0), ("b", 0), ("c", 100)] ∧
    KpiCalc.normalizeWeights [("a", 0), ("b", 0), ("c", 5)] ≠ [("c", 100)] := by
  constructor
  · norm_num +decide [KpiCalc.normalizeWeights, KpiCalc.normalizedOf, KpiCalc.correctionOf,
      KpiCalc.largestEntryOf, KpiCalc.pickLarger, updateAt, round2, totalOf, valsOf,
      round_eq, List.cons_ne_nil, lt_abs, String.reduceEq]
  · norm_num +decide [KpiCalc.normalizeWeights, KpiCalc.normalizedOf, KpiCalc.correctionOf,
      KpiCalc.largestEntryOf, KpiCalc.pickLarger, updateAt, round2, totalOf, valsOf,
      round_eq, List.cons_ne_nil, lt_abs, String.reduceEq]

/-- C8 (amended): the plain normalizer drops zero-weight entries and returns
exactly (c ↦ 100) on (a ↦ 0, b ↦ 0, c ↦ 5), the single positive entry
absorbing the correction to exactly 100; the KPI-specific implementation does
not filter and keeps the zero entries at 0, returning (a ↦ 0, b ↦ 0, c ↦ 100). -/
theorem zero_filter_behaviour :
    NormalizeWeightsUtil.normalizeWeights [("a", 0), ("b", 0), ("c", 5)] = [("c", 100)] ∧
    KpiCalc.normalizeWeights [("a", 0), ("b", 0), ("c", 5)] = [("a", 0), ("b", 0), ("c", 100)] := by
  constructor
  · norm_num [NormalizeWeightsUtil.normalizeWeights, NormalizeWeightsUtil.filteredOf,
      NormalizeWeightsUtil.normalizedOf, NormalizeWeightsUtil.diffOf, round2, totalOf, valsOf,
      updateLast, List.filter, round_eq, List.cons_ne_nil, lt_abs, String.reduceEq]
  · norm_num +decide [KpiCalc.normalizeWeights, KpiCalc.normalizedOf, KpiCalc.correctionOf,
      KpiCalc.largestEntryOf, KpiCalc.pickLarger, updateAt, round2, totalOf, valsOf,
      round_eq, List.cons_ne_nil, lt_abs, String.reduceEq]

/-! Claim theorems: totality and safety. -/

/-- C9: normalization and deduplication are total functions of the embedding:
an empty input mapping yields an empty output for both normalizers, and
`deduplicateKPIs` returns at most as many items as it was given, for every
input list. -/
theorem normalization_dedup_total :
    NormalizeWeightsUtil.normalizeWeights [] = [] ∧
    KpiCalc.normalizeWeights [] = [] ∧
    ∀ l : List KpiCalc.KpiItem, (KpiCalc.deduplicateKPIs l).length ≤ l.length := by
  refine ⟨rfl, rfl, ?_⟩
  intro l
  have h := KpiCalc.foldl_dedupStep_length l []
  simpa [KpiCalc.deduplicateKPIs] using h

/-! Claim theorems: the key set of the plain normalizer. -/

/-- C10: the plain normalizer's output keys are exactly the input keys whose
value is positive (in input order): it never invents keys and never
resurrects a filtered-out key; moreover the defensive equal-share branch is
unreachable, because a non-empty positive filter result has positive total. -/
theorem plain_normalizer_keys_exact (raw : WMap) :
    keysOf (NormalizeWeightsUtil.normalizeWeights raw) =
      keysOf (NormalizeWeightsUtil.filteredOf raw) ∧
    (NormalizeWeightsUtil.filteredOf raw ≠ [] →
      totalOf (NormalizeWeightsUtil.filteredOf raw) ≠ 0) := by
  constructor
  · by_cases hraw : raw = []
    · subst hraw
      simp [NormalizeWeightsUtil.normalizeWeights, NormalizeWeightsUtil.filteredOf, keysOf]
    by_cases hne : NormalizeWeightsUtil.filteredOf raw = []
    · unfold NormalizeWeightsUtil.normalizeWeights
      rw [if_neg hraw, if_pos hne, hne]
    · have hpos := NormalizeWeightsUtil.totalOf_filtered_pos raw hne
      unfold NormalizeWeightsUtil.normalizeWeights
      rw [if_neg hraw, if_neg hne, if_neg (ne_of_gt hpos)]
      by_cases hd : 1/10000 < |NormalizeWeightsUtil.diffOf raw|
      · rw [if_pos hd, keysOf_updateLast, NormalizeWeightsUtil.keysOf_plain_normalizedOf]
      · rw [if_neg hd, NormalizeWeightsUtil.keysOf_plain_normalizedOf]
  · exact fun hne => ne_of_gt (NormalizeWeightsUtil.totalOf_filtered_pos raw hne)

theorem plain_normalizer_keys_exact_witness :
    (NormalizeWeightsUtil.filteredOf [("a", -1), ("b", 2)] ≠ []) ∧
    (keysOf (NormalizeWeightsUtil.normalizeWeights [("a", -1), ("b", 2)]) =
       keysOf (NormalizeWeightsUtil.filteredOf [("a", -1), ("b", 2)]) ∧
     totalOf (NormalizeWeightsUtil.filteredOf [("a", -1), ("b", 2)]) ≠ 0) := by
  have hfil : NormalizeWeightsUtil.filteredOf [("a", (-1:ℚ)), ("b", 2)] ≠ [] := by
    simp [NormalizeWeightsUtil.filteredOf]
  exact ⟨hfil, (plain_normalizer_keys_exact _).1,
    (plain_normalizer_keys_exact ([("a", -1), ("b", 2)] : WMap)).2 hfil⟩

/-! Claim theorems: precondition ordering of the apply-project-weights route. -/

/-- C2 is refuted in its default-template half: on a state where employee e1
has one project-specific KPI record and no default template, the route answers
with the 'add default KPIs first' error, but e1's project-specific records
have ALREADY been deleted (the kpis collection is empty afterwards). -/
theorem template_check_after_delete_cex :
    (ApplyRoute.POST true dbNoTemplate "p1" "e1" "Annual").result =
      ApplyRoute.ApplyResult.noDefaultKpis ∧
    (ApplyRoute.POST true dbNoTemplate "p1" "e1" "Annual").db.kpis = [] ∧
    dbNoTemplate.kpis = [oldProjectKpi] ∧
    oldProjectKpi.isProjectSpecific = true ∧ oldProjectKpi.assignedTo = "e1" := by
  refine ⟨?_, ?_, rfl, rfl, rfl⟩ <;> decide

/-- C2 (amended): the project-missing, employee-missing and weight-profile
checks do precede the destructive delete (on those failures the state is
unchanged), but the default-template check runs after it: when the route
answers `noDefaultKpis`, the employee's project-specific KPI records have
already been removed (the final collection is the post-delete filter). -/
theorem apply_preconditions_vs_delete (admin : Bool) (db : Db) (pid eid per : String) :
    ((ApplyRoute.POST admin db pid eid per).result = ApplyRoute.ApplyResult.projectNotFound ∨
     (ApplyRoute.POST admin db pid eid per).result = ApplyRoute.ApplyResult.employeeNotFound ∨
     (ApplyRoute.POST admin db pid eid per).result = ApplyRoute.ApplyResult.noWeights →
      (ApplyRoute.POST admin db pid eid per).db = db) ∧
    ((ApplyRoute.POST admin db pid eid per).result = ApplyRoute.ApplyResult.noDefaultKpis →
      (ApplyRoute.POST admin db pid eid per).db.kpis = ApplyRoute.remainingOf db eid) := by
  unfold ApplyRoute.POST
  split
  · exact ⟨fun _ => rfl, fun h => by simp at h⟩
  · split
    · exact ⟨fun _ => rfl, fun h => by simp at h⟩
    · split
      · exact ⟨fun _ => rfl, fun h => by simp at h⟩
      · exact ⟨fun _ => rfl, fun h => by simp at h⟩
      · split
        · exact ⟨fun _ => rfl, fun h => by simp at h⟩
        · split
          · exact ⟨fun h => by rcases h with h | h | h <;> simp at h, fun _ => rfl⟩
          · constructor
            · intro h
              rcases h with h | h | h <;> simp at h
            · intro h
              simp at h

theorem apply_preconditions_vs_delete_witness :
    ((ApplyRoute.POST true dbNoTemplate "px" "e1" "Annual").result =
       ApplyRoute.ApplyResult.projectNotFound ∨
     (ApplyRoute.POST true dbNoTemplate "px" "e1" "Annual").result =
       ApplyRoute.ApplyResult.employeeNotFound ∨
     (ApplyRoute.POST true dbNoTemplate "px" "e1" "Annual").result =
       ApplyRoute.ApplyResult.noWeights) ∧
    (ApplyRoute.POST true dbNoTemplate "px" "e1" "Annual").db = dbNoTemplate ∧
    (ApplyRoute.POST true dbNoTemplate "p1" "e1" "Annual").result =
      ApplyRoute.ApplyResult.noDefaultKpis ∧
    (ApplyRoute.POST true dbNoTemplate "p1" "e1" "Annual").db.kpis =
      ApplyRoute.remainingOf dbNoTemplate "e1" :=
  ⟨Or.inl (by decide),
   (apply_preconditions_vs_delete true dbNoTemplate "px" "e1" "Annual").1 (Or.inl (by decide)),
   by decide,
   (apply_preconditions_vs_delete true dbNoTemplate "p1" "e1" "Annual").2 (by decide)⟩

/-! Helper lemmas for the idempotence of the apply-project-weights route. -/

theorem defaults_assigned (db : Db) (eid per : String) :
    ∀ d ∈ ApplyRoute.defaultsOf db eid per, d.assignedTo = eid := by
  intro d hd
  have h := List.of_mem_filter hd
  simp only [decide_eq_true_eq] at h
  exact h.1

theorem newDocsOf_projSpec (project : ProjectRec) (pw : CWMap) (et : String)
    (defaults : List KpiRecord) (eid : String)
    (h : ∀ d ∈ defaults, d.assignedTo = eid) :
    ∀ doc ∈ ApplyRoute.newDocsOf project pw et defaults,
      doc.assignedTo = eid ∧ doc.isProjectSpecific = true := by
  intro doc hdoc
  simp only [ApplyRoute.newDocsOf, List.mem_map] at hdoc
  obtain ⟨d, hd, rfl⟩ := hdoc
  exact ⟨h d hd, rfl⟩

theorem remainingOf_update (db : Db) (eid : String) (docs : List KpiRecord)
    (hdocs : ∀ doc ∈ docs, doc.assignedTo = eid ∧ doc.isProjectSpecific = true) :
    ApplyRoute.remainingOf { db with kpis := (ApplyRoute.remainingOf db eid ++ docs) } eid =
      ApplyRoute.remainingOf db eid := by
  show (ApplyRoute.remainingOf db eid ++ docs).filter
      (fun k => ¬(k.assignedTo = eid ∧ k.isProjectSpecific = true)) =
    ApplyRoute.remainingOf db eid
  rw [List.filter_append]
  have h1 : (ApplyRoute.remainingOf db eid).filter
      (fun k => ¬(k.assignedTo = eid ∧ k.isProjectSpecific = true)) =
      ApplyRoute.remainingOf db eid := by
    rw [List.filter_eq_self]
    intro a ha
    have ha' : a ∈ List.filter
        (fun k => decide ¬(k.assignedTo = eid ∧ k.isProjectSpecific = true)) db.kpis := ha
    exact (List.mem_filter.1 ha').2
  have h2 : docs.filter
      (fun k => ¬(k.assignedTo = eid ∧ k.isProjectSpecific = true)) = [] :=
    List.filter_eq_nil_iff.2 (fun a ha => by simpa using hdocs a ha)
  rw [h1, h2, List.append_nil]

theorem deletedOf_update (db : Db) (eid : String) (docs : List KpiRecord)
    (hdocs : ∀ doc ∈ docs, doc.assignedTo = eid ∧ doc.isProjectSpecific = true) :
    ApplyRoute.deletedOf { db with kpis := (ApplyRoute.remainingOf db eid ++ docs) } eid =
      docs := by
  show (ApplyRoute.remainingOf db eid ++ docs).filter
      (fun k => k.assignedTo = eid ∧ k.isProjectSpecific = true) = docs
  rw [List.filter_append]
  have h1 : (ApplyRoute.remainingOf db eid).filter
      (fun k => k.assignedTo = eid ∧ k.isProjectSpecific = true) = [] := by
    rw [List.filter_eq_nil_iff]
    intro a ha
    have ha' : a ∈ List.filter
        (fun k => decide ¬(k.assignedTo = eid ∧ k.isProjectSpecific = true)) db.kpis := ha
    have h' : ¬(a.assignedTo = eid ∧ a.isProjectSpecific = true) :=
      of_decide_eq_true ((List.mem_filter.1 ha').2)
    simp only [decide_eq_true_eq]
    exact h'
  have h2 : docs.filter
      (fun k => k.assignedTo = eid ∧ k.isProjectSpecific = true) = docs :=
    List.filter_eq_self.2 (fun a ha => by simpa using hdocs a ha)
  rw [h1, h2, List.nil_append]

theorem post_success_inv (admin : Bool) (db : Db) (pid eid per : String) (c d : Nat)
    (h : (ApplyRoute.POST admin db pid eid per).result = ApplyRoute.ApplyResult.success c d) :
    admin = true ∧ pid ≠ "" ∧ eid ≠ "" ∧
    ∃ project employee pw,
      ApplyRoute.findProject db pid = some project ∧
      ApplyRoute.findUser db eid = some employee ∧
      project.kpiWeights = some pw ∧
      ApplyRoute.defaultsOf db eid per ≠ [] ∧
      c = (ApplyRoute.newDocsOf project pw (jsStrOrD employee.employerType "Field")
            (ApplyRoute.defaultsOf db eid per)).length ∧
      d = (ApplyRoute.deletedOf db eid).length := by
  by_cases hadmin : admin = false
  · exfalso
    unfold ApplyRoute.POST at h
    rw [if_pos hadmin] at h
    simp at h
  by_cases hfields : pid = "" ∨ eid = ""
  · exfalso
    unfold ApplyRoute.POST at h
    rw [if_neg hadmin, if_pos hfields] at h
    simp at h
  cases hproj : ApplyRoute.findProject db pid with
  | none =>
      exfalso
      unfold ApplyRoute.POST at h
      rw [if_neg hadmin, if_neg hfields, hproj] at h
      simp at h
  | some project =>
    cases huser : ApplyRoute.findUser db eid with
    | none =>
        exfalso
        unfold ApplyRoute.POST at h
        rw [if_neg hadmin, if_neg hfields, hproj, huser] at h
        simp at h
    | some employee =>
      cases hw : project.kpiWeights with
      | none =>
          exfalso
          unfold ApplyRoute.POST at h
          rw [if_neg hadmin, if_neg hfields, hproj, huser] at h
          dsimp only at h
          rw [hw] at h
          simp at h
      | some pw =>
        by_cases hdef : ApplyRoute.defaultsOf db eid per = []
        · exfalso
          unfold ApplyRoute.POST at h
          rw [if_neg hadmin, if_neg hfields, hproj, huser] at h
          dsimp only at h
          rw [hw] at h
          dsimp only at h
          rw [if_pos hdef] at h
          simp at h
        · unfold ApplyRoute.POST at h
          rw [if_neg hadmin, if_neg hfields, hproj, huser] at h
          dsimp only at h
          rw [hw] at h
          dsimp only at h
          rw [if_neg hdef] at h
          dsimp only at h
          simp only [ApplyRoute.ApplyResult.success.injEq] at h
          push_neg at hfields
          refine ⟨by simpa using hadmin, hfields.1, hfields.2,
            project, employee, pw, rfl, rfl, hw, hdef, ?_, ?_⟩
          · exact h.1.symm
          · exact h.2.symm

theorem post_success_eq (admin : Bool) (db : Db) (pid eid per : String)
    (project : ProjectRec) (employee : UserRec) (pw : CWMap)
    (hadmin : admin = true) (hpid : pid ≠ "") (heid : eid ≠ "")
    (hproj : ApplyRoute.findProject db pid = some project)
    (huser : ApplyRoute.findUser db eid = some employee)
    (hw : project.kpiWeights = some pw)
    (hdef : ApplyRoute.defaultsOf db eid per ≠ []) :
    ApplyRoute.POST admin db pid eid per =
      ⟨ApplyRoute.ApplyResult.success
          (ApplyRoute.newDocsOf project pw (jsStrOrD employee.employerType "Field")
            (ApplyRoute.defaultsOf db eid per)).length
          (ApplyRoute.deletedOf db eid).length,
        { db with kpis := (ApplyRoute.remainingOf db eid ++
            ApplyRoute.newDocsOf project pw (jsStrOrD employee.employerType "Field")
              (ApplyRoute.defaultsOf db eid per)) }⟩ := by
  subst hadmin
  unfold ApplyRoute.POST
  rw [if_neg (by simp), if_neg (by simp [hpid, heid]), hproj, huser]
  dsimp only
  rw [hw]
  dsimp only
  rw [if_neg hdef]

/-! Claim theorem: idempotence of the apply-project-weights route. -/

/-- C3: a second ApplyProjectWeights call for the same (project, employee)
pair, with no interleaving changes, returns success with the identical final
database (hence the same KPI names and weightages), and the number of records
it deletes equals the number of records the first call created
(`updatedCount`). -/
theorem apply_project_weights_idempotent (admin : Bool) (db : Db)
    (pid eid per : String) (c d : Nat)
    (h : (ApplyRoute.POST admin db pid eid per).result =
      ApplyRoute.ApplyResult.success c d) :
    ApplyRoute.POST admin ((ApplyRoute.POST admin db pid eid per).db) pid eid per =
      ⟨ApplyRoute.ApplyResult.success c c,
        (ApplyRoute.POST admin db pid eid per).db⟩ := by
  obtain ⟨hadmin, hpid, heid, project, employee, pw, hproj, huser, hw, hdef, hc, hd⟩ :=
    post_success_inv admin db pid eid per c d h
  have h1 := post_success_eq admin db pid eid per project employee pw
    hadmin hpid heid hproj huser hw hdef
  set et := jsStrOrD employee.employerType "Field" with het
  set docs := ApplyRoute.newDocsOf project pw et (ApplyRoute.defaultsOf db eid per) with hdocs
  set db1 : Db := { db with kpis := (ApplyRoute.remainingOf db eid ++ docs) } with hdb1
  have hPdb : (ApplyRoute.POST admin db pid eid per).db = db1 := by rw [h1]
  have hproj1 : ApplyRoute.findProject db1 pid = some project := hproj
  have huser1 : ApplyRoute.findUser db1 eid = some employee := huser
  have hdocsP : ∀ doc ∈ docs, doc.assignedTo = eid ∧ doc.isProjectSpecific = true := by
    rw [hdocs]
    exact newDocsOf_projSpec project pw et (ApplyRoute.defaultsOf db eid per) eid
      (defaults_assigned db eid per)
  have hrem1 : ApplyRoute.remainingOf db1 eid = ApplyRoute.remainingOf db eid := by
    rw [hdb1]
    exact remainingOf_update db eid docs hdocsP
  have hdel1 : ApplyRoute.deletedOf db1 eid = docs := by
    rw [hdb1]
    exact deletedOf_update db eid docs hdocsP
  have hdef1 : ApplyRoute.defaultsOf db1 eid per = ApplyRoute.defaultsOf db eid per := by
    show (ApplyRoute.remainingOf db1 eid).filter _ =
      (ApplyRoute.remainingOf db eid).filter _
    rw [hrem1]
  have hdef1ne : ApplyRoute.defaultsOf db1 eid per ≠ [] := by
    rw [hdef1]
    exact hdef
  have h2 := post_success_eq admin db1 pid eid per project employee pw
    hadmin hpid heid hproj1 huser1 hw hdef1ne
  rw [hPdb, h2, hdef1, hdel1, hrem1]
  rw [hc, hd] at *

theorem apply_project_weights_idempotent_witness :
    (ApplyRoute.POST true dbReady "p1" "e1" "Annual").result =
      ApplyRoute.ApplyResult.success 2 0 ∧
    ApplyRoute.POST true ((ApplyRoute.POST true dbReady "p1" "e1" "Annual").db)
        "p1" "e1" "Annual" =
      ⟨ApplyRoute.ApplyResult.success 2 2,
        (ApplyRoute.POST true dbReady "p1" "e1" "Annual").db⟩ := by
  have h : (ApplyRoute.POST true dbReady "p1" "e1" "Annual").result =
      ApplyRoute.ApplyResult.success 2 0 := by
    norm_num +decide [ApplyRoute.POST, ApplyRoute.findProject, ApplyRoute.findUser,
      ApplyRoute.defaultsOf, ApplyRoute.remainingOf, ApplyRoute.deletedOf,
      ApplyRoute.newDocsOf, ApplyRoute.positiveWeightsOf, ApplyRoute.cloneDoc,
      ApplyRoute.targetWeight, ApplyRoute.lookupCW, lookupD, jsStrOrD, jsStrOr,
      dbReady, projectP1, userE1, defaultKpiA, defaultKpiB, List.find?, List.filter,
      NormalizeWeightsUtil.normalizeWeights, NormalizeWeightsUtil.filteredOf,
      NormalizeWeightsUtil.normalizedOf, NormalizeWeightsUtil.diffOf, round2, totalOf,
      valsOf, updateLast, round_eq, List.cons_ne_nil, lt_abs, String.reduceEq]
  exact ⟨h, apply_project_weights_idempotent true dbReady "p1" "e1" "Annual" 2 0 h⟩

/-! Helper lemmas for the low-weight skip of the recalculation loop. -/

theorem nodupKeys_value_eq {β : Type} (n : String) (a b : β) :
    ∀ (l : List (String × β)), (l.map Prod.fst).Nodup →
      (n, a) ∈ l → (n, b) ∈ l → a = b
  | [], _, ha, _ => absurd ha (List.not_mem_nil _)
  | p :: t, hnd, ha, hb => by
      simp only [List.map_cons, List.nodup_cons] at hnd
      rcases List.mem_cons.1 ha with hha | hha
      · rcases List.mem_cons.1 hb with hhb | hhb
        · exact congrArg Prod.snd (hha.trans hhb.symm)
        · exfalso
          apply hnd.1
          have hn : n ∈ List.map Prod.fst t := by
            simpa using List.mem_map_of_mem Prod.fst hhb
          rw [← hha]
          exact hn
      · rcases List.mem_cons.1 hb with hhb | hhb
        · exfalso
          apply hnd.1
          have hn : n ∈ List.map Prod.fst t := by
            simpa using List.mem_map_of_mem Prod.fst hha
          rw [← hhb]
          exact hn
        · exact nodupKeys_value_eq n a b t hnd.2 hha hhb

theorem recalc_fold_mem (et : String) (ex : List String) :
    ∀ (kw : CWMap) (acc : List String × List String) (n : String),
      (n ∈ (kw.foldl (RecalcKPI.recalcStepFn et ex) acc).1 ∨
       n ∈ (kw.foldl (RecalcKPI.recalcStepFn et ex) acc).2) →
      (n ∈ acc.1 ∨ n ∈ acc.2) ∨
        ∃ w, (n, w) ∈ kw ∧
          ¬(RecalcKPI.weightToUse et w = 0 ∨ RecalcKPI.weightToUse et w < 5) := by
  intro kw
  induction kw with
  | nil =>
      intro acc n h
      exact Or.inl (by simpa using h)
  | cons e t ih =>
      intro acc n h
      have h' := ih (RecalcKPI.recalcStepFn et ex acc e) n (by simpa using h)
      rcases h' with hacc | ⟨w, hw, hcond⟩
      · by_cases hskip : RecalcKPI.weightToUse et e.2 = 0 ∨ RecalcKPI.weightToUse et e.2 < 5
        · rw [show RecalcKPI.recalcStepFn et ex acc e = acc from by
            unfold RecalcKPI.recalcStepFn; rw [if_pos hskip]] at hacc
          exact Or.inl hacc
        · by_cases hex : ex.contains e.1 = true
          · rw [show RecalcKPI.recalcStepFn et ex acc e = (acc.1, acc.2 ++ [e.1]) from by
              unfold RecalcKPI.recalcStepFn; rw [if_neg hskip, if_pos hex]] at hacc
            rcases hacc with h1 | h2
            · exact Or.inl (Or.inl h1)
            · simp only [List.mem_append, List.mem_singleton] at h2
              rcases h2 with h2 | h2
              · exact Or.inl (Or.inr h2)
              · subst h2
                exact Or.inr ⟨e.2, by simp, hskip⟩
          · rw [show RecalcKPI.recalcStepFn et ex acc e = (acc.1 ++ [e.1], acc.2) from by
              unfold RecalcKPI.recalcStepFn; rw [if_neg hskip, if_neg hex]] at hacc
            rcases hacc with h1 | h2
            · simp only [List.mem_append, List.mem_singleton] at h1
              rcases h1 with h1 | h1
              · exact Or.inl (Or.inl h1)
              · subst h1
                exact Or.inr ⟨e.2, by simp, hskip⟩
            · exact Or.inl (Or.inr h2)
      · exact Or.inr ⟨w, List.mem_cons_of_mem e hw, hcond⟩

/-! Claim theorem: the 5% minimum-weight asymmetry. -/

/-- C4: in the report-triggered recalculation loop, a KPI whose applicable
weight (field or HQ, by the employee's type) is exactly 0 or below the 5%
minimum is neither created nor updated; the full project-application route, by
contrast, still creates the cloned record at its true normalized weight even
below 5%: on the 97/3 profile the route succeeds with 2 creations and stores
the B clone at weightage 3 (which is below 5). -/
theorem low_weight_skip_asymmetry :
    (∀ (et : String) (ex : List String) (kw : CWMap) (n : String) (w : ChannelWeight),
      (n, w) ∈ kw → (kw.map Prod.fst).Nodup →
      (RecalcKPI.weightToUse et w = 0 ∨ RecalcKPI.weightToUse et w < 5) →
      n ∉ (RecalcKPI.recalcStep et ex kw).1 ∧ n ∉ (RecalcKPI.recalcStep et ex kw).2) ∧
    RecalcKPI.recalcStep "Field" [] [("A", ⟨97, 0⟩), ("B", ⟨3, 0⟩)] = (["A"], []) ∧
    (ApplyRoute.POST true dbLow "p2" "e1" "Annual").result =
      ApplyRoute.ApplyResult.success 2 0 ∧
    { kpiName := "B", weightage := 3, originalWeightage := some 50, assignedTo := "e1",
      period := "Annual", isDefault := false, isProjectSpecific := true,
      projectId := some "p2" } ∈ (ApplyRoute.POST true dbLow "p2" "e1" "Annual").db.kpis ∧
    (3 : ℚ) < 5 := by
  have hkpis : (ApplyRoute.POST true dbLow "p2" "e1" "Annual").db.kpis =
      [defaultKpiA, defaultKpiB,
       { kpiName := "A", weightage := 97, originalWeightage := some 50, assignedTo := "e1",
         period := "Annual", isDefault := false, isProjectSpecific := true,
         projectId := some "p2" },
       { kpiName := "B", weightage := 3, originalWeightage := some 50, assignedTo := "e1",
         period := "Annual", isDefault := false, isProjectSpecific := true,
         projectId := some "p2" }] := by
    norm_num +decide [ApplyRoute.POST, ApplyRoute.findProject, ApplyRoute.findUser,
      ApplyRoute.defaultsOf, ApplyRoute.remainingOf, ApplyRoute.deletedOf,
      ApplyRoute.newDocsOf, ApplyRoute.positiveWeightsOf, ApplyRoute.cloneDoc,
      ApplyRoute.targetWeight, ApplyRoute.lookupCW, lookupD, jsStrOrD, jsStrOr,
      dbLow, projectLow, userE1, defaultKpiA, defaultKpiB, List.find?, List.filter,
      NormalizeWeightsUtil.normalizeWeights, NormalizeWeightsUtil.filteredOf,
      NormalizeWeightsUtil.normalizedOf, NormalizeWeightsUtil.diffOf, round2, totalOf,
      valsOf, updateLast, round_eq, List.cons_ne_nil, lt_abs, String.reduceEq]
  refine ⟨?_, ?_, ?_, ?_, by norm_num⟩
  · intro et ex kw n w hmem hnd hlow
    constructor <;> intro hin
    · rcases recalc_fold_mem et ex kw ([], []) n (Or.inl hin) with hacc | ⟨w', hw', hcond⟩
      · simp at hacc
      · have hww : w' = w := nodupKeys_value_eq n w' w kw hnd hw' hmem
        subst hww
        exact hcond hlow
    · rcases recalc_fold_mem et ex kw ([], []) n (Or.inr hin) with hacc | ⟨w', hw', hcond⟩
      · simp at hacc
      · have hww : w' = w := nodupKeys_value_eq n w' w kw hnd hw' hmem
        subst hww
        exact hcond hlow
  · norm_num +decide [RecalcKPI.recalcStep, RecalcKPI.recalcStepFn, RecalcKPI.weightToUse,
      List.foldl, List.contains, String.reduceEq]
  · norm_num +decide [ApplyRoute.POST, ApplyRoute.findProject, ApplyRoute.findUser,
      ApplyRoute.defaultsOf, ApplyRoute.remainingOf, ApplyRoute.deletedOf,
      ApplyRoute.newDocsOf, ApplyRoute.positiveWeightsOf, ApplyRoute.cloneDoc,
      ApplyRoute.targetWeight, ApplyRoute.lookupCW, lookupD, jsStrOrD, jsStrOr,
      dbLow, projectLow, userE1, defaultKpiA, defaultKpiB, List.find?, List.filter,
      NormalizeWeightsUtil.normalizeWeights, NormalizeWeightsUtil.filteredOf,
      NormalizeWeightsUtil.normalizedOf, NormalizeWeightsUtil.diffOf, round2, totalOf,
      valsOf, updateLast, round_eq, List.cons_ne_nil, lt_abs, String.reduceEq]
  · rw [hkpis]
    simp

theorem low_weight_skip_asymmetry_witness :
    (("B", (⟨3, 0⟩ : ChannelWeight)) ∈
       ([("A", ⟨97, 0⟩), ("B", ⟨3, 0⟩)] : CWMap)) ∧
    (([("A", (⟨97, 0⟩ : ChannelWeight)), ("B", ⟨3, 0⟩)] : CWMap).map Prod.fst).Nodup ∧
    (RecalcKPI.weightToUse "Field" ⟨3, 0⟩ = 0 ∨ RecalcKPI.weightToUse "Field" ⟨3, 0⟩ < 5) ∧
    ("B" ∉ (RecalcKPI.recalcStep "Field" [] [("A", ⟨97, 0⟩), ("B", ⟨3, 0⟩)]).1 ∧
     "B" ∉ (RecalcKPI.recalcStep "Field" [] [("A", ⟨97, 0⟩), ("B", ⟨3, 0⟩)]).2) := by
  have hmem : ("B", (⟨3, 0⟩ : ChannelWeight)) ∈
      ([("A", ⟨97, 0⟩), ("B", ⟨3, 0⟩)] : CWMap) := by simp
  have hnd : (([("A", (⟨97, 0⟩ : ChannelWeight)), ("B", ⟨3, 0⟩)] : CWMap).map Prod.fst).Nodup := by
    decide
  have hlow : RecalcKPI.weightToUse "Field" (⟨3, 0⟩ : ChannelWeight) = 0 ∨
      RecalcKPI.weightToUse "Field" (⟨3, 0⟩ : ChannelWeight) < 5 := by
    right
    norm_num [RecalcKPI.weightToUse]
  exact ⟨hmem, hnd, hlow,
    low_weight_skip_asymmetry.1 "Field" [] [("A", ⟨97, 0⟩), ("B", ⟨3, 0⟩)] "B" ⟨3, 0⟩
      hmem hnd hlow⟩
